import Mathlib

/-!
# Quercus.js treeview — shallow embedding

A shallow embedding of `src/treeview.js` (the `Treeview` class).  The DOM
forest of rendered `<li>` elements is modelled as a flat association list
from element paths (index sequences from the root `<ul>`) to per-element
state (`LI`): the CSS classes `selected`, `hidden`, `highlight`,
`expanded`, the checkbox `checked` property, and the parse result of the
element's `dataset.nodeData` JSON payload (`none` models a payload whose
`JSON.parse` throws).  The instance's `selectedNodes` JS `Set` is modelled
as an insertion-ordered duplicate-free list of paths; `Set.add`/`Set.delete`
keep exactly those semantics.  Calls to the `onSelectionChange` callback are
collected as a list of emitted notification payloads.
-/

/-- A node's own scalar data: `id`, `name`, plus arbitrary additional
attributes (opaque to the core, modelled as key/value pairs). -/
structure NodeData where
  id : String
  name : String
  extra : List (String × String)
deriving DecidableEq

/-- The externally supplied tree node: data plus ordered children
(`children` absent/empty ⇒ leaf). -/
inductive TreeNode where
  | mk : NodeData → List TreeNode → TreeNode

def TreeNode.data : TreeNode → NodeData
  | .mk d _ => d

def TreeNode.children : TreeNode → List TreeNode
  | .mk _ cs => cs

mutual

def TreeNode.deq : (a b : TreeNode) → Decidable (a = b)
  | .mk d1 cs1, .mk d2 cs2 =>
    if h1 : d1 = d2 then
      match TreeNode.deqList cs1 cs2 with
      | isFalse h => isFalse (by intro he; cases he; exact h rfl)
      | isTrue h2 => isTrue (by rw [h1, h2])
    else isFalse (by intro he; cases he; exact h1 rfl)

def TreeNode.deqList : (a b : List TreeNode) → Decidable (a = b)
  | [], [] => isTrue rfl
  | [], _ :: _ => isFalse (by intro he; cases he)
  | _ :: _, [] => isFalse (by intro he; cases he)
  | x :: xs, y :: ys =>
    match TreeNode.deq x y with
    | isFalse h => isFalse (by intro he; cases he; exact h rfl)
    | isTrue h1 =>
      match TreeNode.deqList xs ys with
      | isFalse h => isFalse (by intro he; cases he; exact h rfl)
      | isTrue h2 => isTrue (by rw [h1, h2])

end

instance : DecidableEq TreeNode := TreeNode.deq

/-- The configuration options of the `Treeview` constructor that the core
state machine reads.  `hasOnSelectionChange` models whether the host
supplied an `onSelectionChange` callback. -/
structure Options where
  searchEnabled : Bool
  initiallyExpanded : Bool
  multiSelectEnabled : Bool
  nodeSelectionEnabled : Bool
  cascadeSelectChildren : Bool
  checkboxSelectionEnabled : Bool
  hasOnSelectionChange : Bool
deriving DecidableEq

/-- Path of an `<li>` element: child indices from the root `<ul>`. -/
abbrev EPath := List Nat

/-- Per-`<li>`-element state.  `payload` is the result of
`JSON.parse(li.dataset.nodeData)`: `some t` when the stored JSON
round-trips to the original node `t`, `none` when parsing throws. -/
structure LI where
  id : String
  payload : Option TreeNode
  expanded : Bool
  selected : Bool
  hidden : Bool
  highlight : Bool
  checked : Bool
deriving DecidableEq

/-- The rendered forest: `<li>` elements in document (pre-)order keyed by
path. -/
abbrev Forest := List (EPath × LI)

/-- What one entry of a selection query / notification payload carries:
either the node's original data object (the successful `JSON.parse`), or
the minimal fallback record `{id, name}` built in the `catch` branch. -/
inductive NodeVal where
  | full : TreeNode → NodeVal
  | minimal : String → String → NodeVal
deriving DecidableEq

/-- The whole widget state: options, rendered forest, `selectedNodes`
(insertion-ordered list of element paths). -/
structure TState where
  opts : Options
  forest : Forest
  selection : List EPath
deriving DecidableEq

/-! ## Rendering (`_renderTree`)

`_renderTree` stores `JSON.stringify(node)` on each `<li>`; on a fresh
render no payload is corrupted and no element is selected/hidden/
highlighted; `expanded` is set exactly on nodes with children when
`initiallyExpanded` is true. -/

mutual

def renderNode (opts : Options) (p : EPath) : TreeNode → Forest
  | .mk d cs =>
    (p, { id := d.id
          payload := some (.mk d cs)
          expanded := opts.initiallyExpanded && !cs.isEmpty
          selected := false
          hidden := false
          highlight := false
          checked := false }) :: renderList opts p 0 cs

def renderList (opts : Options) (p : EPath) (i : Nat) : List TreeNode → Forest
  | [] => []
  | t :: ts => renderNode opts (p ++ [i]) t ++ renderList opts p (i + 1) ts

end

/-- Constructor / `setData`: fresh forest, empty selection. -/
def initState (opts : Options) (data : List TreeNode) : TState :=
  { opts := opts, forest := renderList opts [] 0 data, selection := [] }

/-! ## DOM helpers -/

/-- All element paths in document order (`querySelectorAll('li')`). -/
def pathsOf (f : Forest) : List EPath := f.map (·.1)

/-- Look up the `<li>` at a path. -/
def lookupLI : Forest → EPath → Option LI
  | [], _ => none
  | e :: rest, p => if e.1 = p then some e.2 else lookupLI rest p

/-- Apply a per-element update to every element (paths unchanged) —
models a `forEach` over `<li>` elements performing independent per-element
class/property mutations. -/
def mapLIs (g : EPath → LI → LI) (f : Forest) : Forest :=
  f.map (fun e => (e.1, g e.1 e.2))

/-- Apply an update to the elements whose path lies in `ps` (a `forEach`
over a collected `Set` of elements). -/
def setFlags (f : Forest) (ps : List EPath) (g : LI → LI) : Forest :=
  mapLIs (fun p li => if p ∈ ps then g li else li) f

/-- Direct children of the element at `p` (the `<li>` entries of its
child `<ul>`). -/
def childrenPaths (ps : List EPath) (p : EPath) : List EPath :=
  ps.filter (fun q => q.length = p.length + 1 && p.isPrefixOf q)

/-- Whether the element at `p` has a child `<ul>` (equivalently, carries
the `has-children` class: `_renderTree` adds it exactly when
`node.children` is non-empty). -/
def hasChildrenF (f : Forest) (p : EPath) : Bool :=
  !(childrenPaths (pathsOf f) p).isEmpty

/-- One queue round of the BFS in `_getAllDescendants`: emit all children
of the frontier, then recurse on them.  The fuel bounds the loop exactly
as the worklist in the source is bounded by the total node count. -/
def bfsDesc (ps : List EPath) : Nat → List EPath → List EPath
  | 0, _ => []
  | n + 1, frontier =>
    let next := frontier.flatMap (childrenPaths ps)
    next ++ bfsDesc ps n next

/-- `_getAllDescendants(liElement)`: BFS over the subtree of `p`, parent
excluded, in dequeue order. -/
def getAllDescendants (f : Forest) (p : EPath) : List EPath :=
  bfsDesc (pathsOf f) f.length [p]

/-! ## Read-back of stored payloads -/

/-- `getDisplayNameFromNodeElement`: re-parse the stored payload; on
success `nodeData.name || ''`, on failure the `'Unnamed Node'` fallback. -/
def getDisplayNameFromNodeElement (li : LI) : String :=
  match li.payload with
  | some t => t.data.name
  | none => "Unnamed Node"

/-- The `try JSON.parse / catch return minimal record` pattern of
`getSelectedNodes` and `_triggerSelectionChange`. -/
def nodeValOf (li : LI) : NodeVal :=
  match li.payload with
  | some t => .full t
  | none => .minimal li.id (getDisplayNameFromNodeElement li)

/-- Element used when a selection path has no element; unreachable from the
public API (the `selectedNodes` set only ever holds rendered elements). -/
def phantomLI : LI :=
  { id := "", payload := none, expanded := false, selected := false,
    hidden := false, highlight := false, checked := false }

/-- `getSelectedNodes()`: map the selection, in insertion order, through
the parse-with-fallback. -/
def getSelectedNodes (s : TState) : List NodeVal :=
  s.selection.map (fun p => nodeValOf ((lookupLI s.forest p).getD phantomLI))

/-- `getSelectedNode()` — delegates to `getSelectedNodes()`. -/
def getSelectedNode (s : TState) : List NodeVal :=
  getSelectedNodes s

/-- `_triggerSelectionChange`: invoke the callback (when supplied) with the
full current selection's data.  Returns the emitted notification payloads. -/
def triggerSelectionChange (s : TState) : List (List NodeVal) :=
  if s.opts.hasOnSelectionChange then [getSelectedNodes s] else []

/-! ## Selection -/

/-- JS `Set.add`: append iff not already present (position kept otherwise). -/
def addSel (sel : List EPath) (p : EPath) : List EPath :=
  if p ∈ sel then sel else sel ++ [p]

/-- JS `Set.delete`. -/
def delSel (sel : List EPath) (p : EPath) : List EPath :=
  sel.filter (fun q => q ≠ p)

/-- The effective `isSelected` argument of `_selectNode`: the explicit
argument when passed, else the checkbox state when a checkbox exists, else
the toggle of current set membership. -/
def effectiveSel (s : TState) (p : EPath) (explicit : Option Bool) : Bool :=
  match explicit with
  | some b => b
  | none =>
    if s.opts.checkboxSelectionEnabled then
      ((lookupLI s.forest p).getD phantomLI).checked
    else !(s.selection.contains p)

/-- The state mutation performed by `_selectNode` once past the
disabled-selection guard (everything before `_triggerSelectionChange`). -/
def selectNodeState (s : TState) (p : EPath) (explicit : Option Bool) : TState :=
  let isSel := effectiveSel s p explicit
  if s.opts.multiSelectEnabled then
    if isSel then
      { s with
        selection := addSel s.selection p
        forest := setFlags s.forest [p] (fun l =>
          { l with selected := true,
                   checked := if s.opts.checkboxSelectionEnabled then true else l.checked }) }
    else
      { s with
        selection := delSel s.selection p
        forest := setFlags s.forest [p] (fun l =>
          { l with selected := false,
                   checked := if s.opts.checkboxSelectionEnabled then false else l.checked }) }
  else
    -- single-select: clear every previous selection (classes + set),
    -- uncheck every checkbox when checkboxes are enabled
    let f1 := setFlags s.forest s.selection (fun l => { l with selected := false })
    let f2 :=
      if s.opts.checkboxSelectionEnabled then
        mapLIs (fun _ l => { l with checked := false }) f1
      else f1
    if isSel then
      let ds :=
        if s.opts.cascadeSelectChildren then getAllDescendants s.forest p
        else []
      { s with
        selection := List.foldl addSel (addSel [] p) ds
        forest := setFlags f2 (p :: ds) (fun l =>
          { l with selected := true,
                   checked := if s.opts.checkboxSelectionEnabled then true else l.checked }) }
    else
      { s with selection := [], forest := f2 }

/-- `_selectNode(nodeElement, isSelected = null)`: guard, mutate, then
`_triggerSelectionChange`.  Returns the new state and the list of
notification payloads emitted during the call. -/
def selectNode (s : TState) (p : EPath) (explicit : Option Bool) :
    TState × List (List NodeVal) :=
  if !s.opts.nodeSelectionEnabled then
    -- defensive guard: warn and return, no mutation, no notification
    (s, [])
  else
    (selectNodeState s p explicit,
     triggerSelectionChange (selectNodeState s p explicit))

/-- Click on a node's text (the `nodeContentWrapper` listener): calls
`_selectNode(li, !li.classList.contains('selected'))`.  The listener is
only installed when `nodeSelectionEnabled && !checkboxSelectionEnabled`. -/
def clickNode (s : TState) (p : EPath) : TState × List (List NodeVal) :=
  if s.opts.nodeSelectionEnabled && !s.opts.checkboxSelectionEnabled then
    selectNode s p (some (!((lookupLI s.forest p).getD phantomLI).selected))
  else (s, [])

/-- The state mutation performed by `_toggleSelectAll` once past its three
guards. -/
def toggleSelectAllState (s : TState) : TState :=
  let all := pathsOf s.forest
  let shouldSelectAll :=
    s.selection.length = 0 || s.selection.length < all.length
  if shouldSelectAll then
    { s with
      selection := List.foldl addSel s.selection all
      forest := mapLIs (fun _ l =>
        { l with selected := true,
                 checked := if s.opts.checkboxSelectionEnabled then true else l.checked }) s.forest }
  else
    { s with
      selection := List.foldl delSel s.selection all
      forest := mapLIs (fun _ l =>
        { l with selected := false,
                 checked := if s.opts.checkboxSelectionEnabled then false else l.checked }) s.forest }

/-- `_toggleSelectAll()`: three guards (selection disabled / multi-select
off / cascade on) each warn and return without mutating or notifying;
otherwise select-all or deselect-all, then `_triggerSelectionChange`. -/
def toggleSelectAll (s : TState) : TState × List (List NodeVal) :=
  if !s.opts.nodeSelectionEnabled then (s, [])
  else if !s.opts.multiSelectEnabled then (s, [])
  else if s.opts.cascadeSelectChildren then (s, [])
  else
    (toggleSelectAllState s, triggerSelectionChange (toggleSelectAllState s))

/-! ## Search (`_searchTree`) -/

/-- Case-insensitive substring occurrence on character lists
(JS `haystack.toLowerCase().includes(needle.toLowerCase())`). -/
def subOccurs (needle : List Char) : List Char → Bool
  | [] => needle.isEmpty
  | c :: rest => needle.isPrefixOf (c :: rest) || subOccurs needle rest

def strContainsCI (hay q : String) : Bool :=
  subOccurs (q.data.map Char.toLower) (hay.data.map Char.toLower)

/-- Whether this element's stored name matches the query. -/
def matchedLI (li : LI) (term : String) : Bool :=
  match li.payload with
  | some t => strContainsCI t.data.name term
  | none => false

def matchedAt (f : Forest) (term : String) (p : EPath) : Bool :=
  match lookupLI f p with
  | some li => matchedLI li term
  | none => false

/-- The strict non-empty prefixes of a path — the paths of the element's
ancestor `<li>`s (the `closest`-climbing loop of `_searchTree`). -/
def properPrefixes (p : EPath) : List EPath :=
  (List.range p.length).tail.map (fun i => p.take i)

/-- Empty-query branch of `_searchTree`: un-hide and un-highlight every
element, collapse every `has-children` element, then (when
`initiallyExpanded`) re-expand every `has-children` element. -/
def searchEmpty (opts : Options) (f : Forest) : Forest :=
  let f1 := mapLIs (fun p li =>
    { li with hidden := false, highlight := false,
              expanded := if hasChildrenF f p then false else li.expanded }) f
  if opts.initiallyExpanded then
    mapLIs (fun p li =>
      { li with expanded := if hasChildrenF f1 p then true else li.expanded }) f1
  else f1

/-- Pass 1 of the non-empty-query branch: un-highlight, hide everything,
collapse every element with a child `<ul>`. -/
def pass1 (f : Forest) : Forest :=
  mapLIs (fun p li =>
    { li with highlight := false, hidden := true,
              expanded := if hasChildrenF f p then false else li.expanded }) f

/-- The `matchingNodes` set, in document order. -/
def searchHits (f : Forest) (term : String) : List EPath :=
  ((pass1 f).filter (fun e => matchedLI e.2 term)).map (·.1)

/-- The `ancestorsToExpand` set: every ancestor of every match. -/
def searchAncs (f : Forest) (term : String) : List EPath :=
  (searchHits f term).flatMap properPrefixes

/-- Non-empty-query branch of `_searchTree`.  The match loop runs
`JSON.parse(item.dataset.nodeData)` with no `try`/`catch`: a corrupted
payload anywhere makes the whole call throw (`Except.error`). -/
def searchActive (f : Forest) (term : String) : Except Unit Forest :=
  let f1 := pass1 f
  if f1.any (fun e => e.2.payload.isNone) then .error ()
  else
    -- pass 2: highlight matches
    let f2 := setFlags f1 (searchHits f term) (fun li => { li with highlight := true })
    -- pass 3: un-hide matches
    let f3 := setFlags f2 (searchHits f term) (fun li => { li with hidden := false })
    -- pass 4: un-hide and force-expand every ancestor of a match
    let f4 := setFlags f3 (searchAncs f term) (fun li => { li with hidden := false, expanded := true })
    .ok f4

/-- `search(term)` / the search input handler: dispatch on empty query. -/
def search (s : TState) (term : String) : Except Unit TState :=
  if term = "" then .ok { s with forest := searchEmpty s.opts s.forest }
  else (searchActive s.forest term).map (fun f => { s with forest := f })

/-- `setData(newData)`: clear the container, clear the selection, re-render. -/
def setData (s : TState) (newData : List TreeNode) : TState :=
  { opts := s.opts, forest := renderList s.opts [] 0 newData, selection := [] }

/-! ## Call sequences over the selection API -/

inductive Op where
  | select (p : EPath) (explicit : Option Bool)
  | click (p : EPath)
  | toggleAll
deriving DecidableEq

def runOp (s : TState) : Op → TState × List (List NodeVal)
  | .select p e => selectNode s p e
  | .click p => clickNode s p
  | .toggleAll => toggleSelectAll s

def runOps (s : TState) : List Op → TState × List (List NodeVal)
  | [] => (s, [])
  | op :: ops =>
    let r := runOp s op
    let r' := runOps r.1 ops
    (r'.1, r.2 ++ r'.2)

/-- The states reached after each successive operation. -/
def trace (s : TState) : List Op → List TState
  | [] => []
  | op :: ops =>
    let s' := (runOp s op).1
    s' :: trace s' ops

/-! ## Well-formedness of a rendered forest -/

/-- The path lists produced by rendering: duplicate-free, non-empty
(every `<li>` sits at some child index), and closed under taking
non-empty prefixes (every `<li>`'s ancestor `<li>` is in the document). -/
def wfPaths (ps : List EPath) : Prop :=
  ps.Nodup ∧ (∀ q ∈ ps, q ≠ []) ∧
    ∀ q ∈ ps, ∀ i ∈ List.range q.length, 0 < i → q.take i ∈ ps

instance (ps : List EPath) : Decidable (wfPaths ps) := by
  unfold wfPaths; infer_instance

/-! ## Basic lemmas about forest operations -/

theorem pathsOf_mapLIs (g : EPath → LI → LI) (f : Forest) :
    pathsOf (mapLIs g f) = pathsOf f := by
  simp [pathsOf, mapLIs]

theorem lookupLI_mapLIs (g : EPath → LI → LI) (f : Forest) (p : EPath) :
    lookupLI (mapLIs g f) p = (lookupLI f p).map (g p) := by
  induction f with
  | nil => rfl
  | cons e rest ih =>
    simp only [mapLIs, List.map_cons, lookupLI]
    by_cases h : e.1 = p
    · subst h; simp
    · simpa [h] using ih

theorem lookupLI_setFlags (f : Forest) (ps : List EPath) (g : LI → LI) (p : EPath) :
    lookupLI (setFlags f ps g) p =
      (lookupLI f p).map (fun li => if p ∈ ps then g li else li) := by
  simp [setFlags, lookupLI_mapLIs]

theorem mem_pathsOf_of_lookup {f : Forest} {p : EPath} {li : LI}
    (h : lookupLI f p = some li) : p ∈ pathsOf f := by
  induction f with
  | nil => simp [lookupLI] at h
  | cons e rest ih =>
    simp only [lookupLI] at h
    by_cases he : e.1 = p
    · simp [pathsOf, he]
    · simp only [he, if_false] at h
      simp [pathsOf] at ih ⊢
      right
      simpa [pathsOf] using ih h

theorem lookup_isSome_of_mem {f : Forest} {p : EPath}
    (h : p ∈ pathsOf f) : (lookupLI f p).isSome := by
  induction f with
  | nil => simp [pathsOf] at h
  | cons e rest ih =>
    simp only [pathsOf, List.map_cons, List.mem_cons] at h
    simp only [lookupLI]
    by_cases he : e.1 = p
    · simp [he]
    · rcases h with h | h
      · exact absurd h.symm he
      · simpa [he] using ih (by simpa [pathsOf] using h)

theorem hasChildrenF_mapLIs (g : EPath → LI → LI) (f : Forest) (p : EPath) :
    hasChildrenF (mapLIs g f) p = hasChildrenF f p := by
  simp [hasChildrenF, pathsOf_mapLIs]

/-! ## `Set.add` fold lemma -/

theorem foldl_addSel_of_fresh :
    ∀ (ds acc : List EPath), ds.Nodup → (∀ d ∈ ds, d ∉ acc) →
      List.foldl addSel acc ds = acc ++ ds := by
  intro ds
  induction ds with
  | nil => intro acc _ _; simp
  | cons d rest ih =>
    intro acc hnd hfresh
    have hd : d ∉ acc := hfresh d (by simp)
    simp only [List.foldl_cons]
    rw [addSel, if_neg hd]
    rw [ih (acc ++ [d]) (List.Nodup.of_cons hnd)]
    · simp
    · intro x hx
      simp only [List.mem_append, List.mem_singleton]
      rintro (h | h)
      · exact hfresh x (by simp [hx]) h
      · subst h
        exact (List.nodup_cons.mp hnd).1 hx

/-! ## BFS descendant-enumeration lemmas -/

theorem mem_childrenPaths {ps : List EPath} {p q : EPath} :
    q ∈ childrenPaths ps p ↔ q ∈ ps ∧ q.length = p.length + 1 ∧ p <+: q := by
  simp [childrenPaths, List.mem_filter, List.isPrefixOf_iff_prefix, and_assoc]

theorem bfsDesc_sound {ps : List EPath} {p : EPath} :
    ∀ (n : Nat) (frontier : List EPath), (∀ r ∈ frontier, p <+: r) →
      ∀ q ∈ bfsDesc ps n frontier, q ∈ ps ∧ p <+: q ∧ p.length < q.length := by
  intro n
  induction n with
  | zero => intro frontier _ q hq; simp [bfsDesc] at hq
  | succ m ih =>
    intro frontier hfr q hq
    simp only [bfsDesc, List.mem_append] at hq
    have hnext : ∀ r ∈ frontier.flatMap (childrenPaths ps),
        r ∈ ps ∧ p <+: r ∧ p.length < r.length := by
      intro r hr
      rcases List.mem_flatMap.mp hr with ⟨a, ha, hra⟩
      rcases mem_childrenPaths.mp hra with ⟨hmem, hlen, hpre⟩
      have hple := (hfr a ha).length_le
      exact ⟨hmem, (hfr a ha).trans hpre, by omega⟩
    rcases hq with hq | hq
    · exact hnext q hq
    · exact ih _ (fun r hr => (hnext r hr).2.1) q hq

theorem bfsDesc_complete {ps : List EPath} :
    ∀ (n : Nat) (frontier : List EPath) (r q : EPath),
      r ∈ frontier → q ∈ ps → r <+: q → r.length < q.length →
      q.length - r.length ≤ n →
      (∀ i, r.length < i → i < q.length → q.take i ∈ ps) →
      q ∈ bfsDesc ps n frontier := by
  intro n
  induction n with
  | zero => intro frontier r q _ _ _ h1 h2 _; omega
  | succ m ih =>
    intro frontier r q hr hq hpre hlt hle hcl
    simp only [bfsDesc, List.mem_append]
    by_cases hstep : q.length = r.length + 1
    · exact Or.inl (List.mem_flatMap.mpr ⟨r, hr, mem_childrenPaths.mpr ⟨hq, hstep, hpre⟩⟩)
    · have hr'len : (q.take (r.length + 1)).length = r.length + 1 := by
        rw [List.length_take]; omega
      have hrr' : r <+: q.take (r.length + 1) := by
        rw [List.prefix_iff_eq_take.mp hpre]
        exact List.prefix_take_iff.mpr ⟨List.take_prefix _ _, by rw [List.length_take]; omega⟩
      have hr'mem : q.take (r.length + 1) ∈ ps := hcl (r.length + 1) (by omega) (by omega)
      have hr'next : q.take (r.length + 1) ∈ frontier.flatMap (childrenPaths ps) :=
        List.mem_flatMap.mpr ⟨r, hr, mem_childrenPaths.mpr ⟨hr'mem, hr'len, hrr'⟩⟩
      refine Or.inr (ih _ (q.take (r.length + 1)) q hr'next hq (List.take_prefix _ _)
        (by omega) (by omega) ?_)
      intro i h1 h2
      exact hcl i (by omega) h2

theorem bfsDesc_nodup {ps : List EPath} (hps : ps.Nodup) :
    ∀ (n : Nat) (frontier : List EPath) (L : Nat),
      frontier.Nodup → (∀ r ∈ frontier, r.length = L) →
      (bfsDesc ps n frontier).Nodup ∧ ∀ q ∈ bfsDesc ps n frontier, L < q.length := by
  intro n
  induction n with
  | zero =>
    intro frontier L _ _
    exact ⟨by simp [bfsDesc], by intro q hq; simp [bfsDesc] at hq⟩
  | succ m ih =>
    intro frontier L hnd hlen
    have hnextlen : ∀ q ∈ frontier.flatMap (childrenPaths ps), q.length = L + 1 := by
      intro q hq
      rcases List.mem_flatMap.mp hq with ⟨a, ha, hqa⟩
      rcases mem_childrenPaths.mp hqa with ⟨_, hl, _⟩
      rw [hl, hlen a ha]
    have hnextnd : (frontier.flatMap (childrenPaths ps)).Nodup := by
      rw [List.nodup_flatMap]
      refine ⟨fun x _ => hps.filter _, ?_⟩
      apply hnd.imp
      intro a b hab q hqa hqb
      rcases mem_childrenPaths.mp hqa with ⟨_, hla, hpa⟩
      rcases mem_childrenPaths.mp hqb with ⟨_, hlb, hpb⟩
      apply hab
      rw [List.prefix_iff_eq_take.mp hpa, List.prefix_iff_eq_take.mp hpb]
      congr 1
      omega
    rcases ih (frontier.flatMap (childrenPaths ps)) (L + 1) hnextnd hnextlen with ⟨ihnd, ihlen⟩
    constructor
    · simp only [bfsDesc]
      rw [List.nodup_append]
      refine ⟨hnextnd, ihnd, ?_⟩
      intro q hq1 hq2
      have h1 := hnextlen q hq1
      have h2 := ihlen q hq2
      omega
    · intro q hq
      simp only [bfsDesc, List.mem_append] at hq
      rcases hq with h | h
      · have := hnextlen q h; omega
      · have := ihlen q h; omega

theorem getAllDescendants_sound {f : Forest} {p q : EPath}
    (hq : q ∈ getAllDescendants f p) :
    q ∈ pathsOf f ∧ p <+: q ∧ p.length < q.length :=
  bfsDesc_sound f.length [p]
    (by intro r hr; rw [List.mem_singleton] at hr; rw [hr]) q hq

theorem getAllDescendants_nodup {f : Forest} (hps : (pathsOf f).Nodup) (p : EPath) :
    (getAllDescendants f p).Nodup :=
  (bfsDesc_nodup hps f.length [p] p.length (List.nodup_singleton p)
    (by intro r hr; rw [List.mem_singleton] at hr; rw [hr])).1

/-- Depth is bounded by node count in a duplicate-free prefix-closed
forest: the chain of proper prefixes between `p` and `q` injects into the
path list. -/
theorem chain_length_le {f : Forest} {p q : EPath}
    (hwf : wfPaths (pathsOf f)) (hq : q ∈ pathsOf f) (_hpre : p <+: q) :
    q.length - p.length ≤ f.length := by
  classical
  set C : List EPath :=
    (List.range (q.length - p.length)).map (fun j => q.take (p.length + 1 + j)) with hC
  have hmem : ∀ x ∈ C, x ∈ pathsOf f := by
    intro x hx
    rcases List.mem_map.mp hx with ⟨j, hj, hxj⟩
    rw [List.mem_range] at hj
    subst hxj
    by_cases hlast : p.length + 1 + j = q.length
    · rw [hlast, List.take_length]; exact hq
    · exact hwf.2.2 q hq _ (List.mem_range.mpr (by omega)) (by omega)
  have hnd : C.Nodup := by
    apply List.Nodup.map_on ?_ (List.nodup_range _)
    intro x hx y hy hxy
    rw [List.mem_range] at hx hy
    have hlx : (q.take (p.length + 1 + x)).length = p.length + 1 + x := by
      rw [List.length_take]; omega
    have hly : (q.take (p.length + 1 + y)).length = p.length + 1 + y := by
      rw [List.length_take]; omega
    have : p.length + 1 + x = p.length + 1 + y := by rw [← hlx, ← hly, hxy]
    omega
  have hsub : C ⊆ pathsOf f := hmem
  have hle := (List.subperm_of_subset hnd hsub).length_le
  have hClen : C.length = q.length - p.length := by
    rw [hC, List.length_map, List.length_range]
  have hplen : (pathsOf f).length = f.length := List.length_map _ _
  omega

/-- Full characterization of `_getAllDescendants` on a well-formed forest:
it enumerates exactly the strict descendants of `p`. -/
theorem mem_getAllDescendants {f : Forest} {p : EPath}
    (hwf : wfPaths (pathsOf f)) (q : EPath) :
    q ∈ getAllDescendants f p ↔ q ∈ pathsOf f ∧ p <+: q ∧ q ≠ p := by
  constructor
  · intro hq
    rcases getAllDescendants_sound hq with ⟨h1, h2, h3⟩
    refine ⟨h1, h2, ?_⟩
    intro he; rw [he] at h3; omega
  · rintro ⟨hqmem, hpre, hne⟩
    have hlt : p.length < q.length := by
      rcases Nat.lt_or_ge p.length q.length with h | h
      · exact h
      · exact absurd (hpre.eq_of_length (by have := hpre.length_le; omega)).symm hne
    apply bfsDesc_complete f.length [p] p q (List.mem_singleton_self p) hqmem hpre hlt
      (chain_length_le hwf hqmem hpre)
    intro i h1 h2
    exact hwf.2.2 q hqmem i (List.mem_range.mpr h2) (by omega)

/-! ## Search lemmas -/

theorem searchHits_eq (f : Forest) (term : String) :
    searchHits f term = (f.filter (fun e => matchedLI e.2 term)).map (·.1) := by
  unfold searchHits pass1 mapLIs
  rw [List.filter_map, List.map_map]
  rfl

theorem mem_pathsOf_of_mem_hits {f : Forest} {P : EPath × LI → Bool} {p : EPath}
    (h : p ∈ (f.filter P).map (·.1)) : p ∈ pathsOf f := by
  rcases List.mem_map.mp h with ⟨e, he, rfl⟩
  exact List.mem_map.mpr ⟨e, List.mem_of_mem_filter he, rfl⟩

theorem mem_searchHits {f : Forest} {term : String} {p : EPath}
    (hnd : (pathsOf f).Nodup) :
    p ∈ searchHits f term ↔ matchedAt f term p = true := by
  rw [searchHits_eq]
  induction f with
  | nil => simp [matchedAt, lookupLI]
  | cons e rest ih =>
    have hpaths : pathsOf (e :: rest) = e.1 :: pathsOf rest := rfl
    rw [hpaths, List.nodup_cons] at hnd
    by_cases hp : e.1 = p
    · subst hp
      by_cases hm : matchedLI e.2 term
      · simp [List.filter_cons, hm, matchedAt, lookupLI]
      · simp only [List.filter_cons, hm, if_neg, Bool.false_eq_true, ite_false,
          matchedAt, lookupLI, if_pos rfl]
        constructor
        · intro hmem
          exact absurd (mem_pathsOf_of_mem_hits hmem) hnd.1
        · intro hc
          exact absurd hc (by simpa using hm)
    · have hmat : matchedAt (e :: rest) term p = matchedAt rest term p := by
        simp [matchedAt, lookupLI, hp]
      rw [hmat, ← ih hnd.2]
      by_cases hm : matchedLI e.2 term
      · simp only [List.filter_cons, hm, ite_true, List.map_cons, List.mem_cons]
        constructor
        · rintro (h | h)
          · exact absurd h.symm hp
          · exact h
        · exact Or.inr
      · simp [List.filter_cons, hm]

theorem mem_tail_range {i n : Nat} : i ∈ (List.range n).tail ↔ 0 < i ∧ i < n := by
  cases n with
  | zero => simp
  | succ m =>
    rw [List.range_succ_eq_map]
    simp only [List.tail_cons, List.mem_map, List.mem_range]
    constructor
    · rintro ⟨j, hj, rfl⟩; omega
    · intro h; exact ⟨i - 1, by omega, by omega⟩

theorem mem_properPrefixes {p q : EPath} :
    p ∈ properPrefixes q ↔ p <+: q ∧ p ≠ [] ∧ p.length < q.length := by
  unfold properPrefixes
  simp only [List.mem_map]
  constructor
  · rintro ⟨i, hi, rfl⟩
    rw [mem_tail_range] at hi
    have hlen : (q.take i).length = i := by rw [List.length_take]; omega
    refine ⟨List.take_prefix _ _, ?_, ?_⟩
    · rw [← List.length_pos, hlen]; omega
    · rw [hlen]; omega
  · rintro ⟨hpre, hne, hlen⟩
    refine ⟨p.length, ?_, ?_⟩
    · rw [mem_tail_range]
      exact ⟨List.length_pos.mpr hne, hlen⟩
    · exact (List.prefix_iff_eq_take.mp hpre).symm

theorem mem_searchAncs {f : Forest} {term : String} {p : EPath} :
    p ∈ searchAncs f term ↔
      ∃ q ∈ searchHits f term, p <+: q ∧ p ≠ [] ∧ p.length < q.length := by
  unfold searchAncs
  rw [List.mem_flatMap]
  constructor
  · rintro ⟨q, hq, hp⟩
    exact ⟨q, hq, mem_properPrefixes.mp hp⟩
  · rintro ⟨q, hq, hp⟩
    exact ⟨q, hq, mem_properPrefixes.mpr hp⟩

theorem searchActive_ok_forest {f : Forest} {term : String} {f4 : Forest}
    (h : searchActive f term = .ok f4) (p : EPath) :
    lookupLI f4 p = (lookupLI f p).map (fun li =>
      { li with
        highlight := decide (p ∈ searchHits f term),
        hidden := !(decide (p ∈ searchHits f term) || decide (p ∈ searchAncs f term)),
        expanded := if p ∈ searchAncs f term then true
                    else if hasChildrenF f p then false else li.expanded }) := by
  unfold searchActive at h
  by_cases hcor : (pass1 f).any (fun e => e.2.payload.isNone)
  · rw [if_pos hcor] at h
    cases h
  · rw [if_neg hcor] at h
    simp only [Except.ok.injEq] at h
    rw [← h]
    rw [lookupLI_setFlags, lookupLI_setFlags, lookupLI_setFlags]
    unfold pass1
    rw [lookupLI_mapLIs]
    cases hl : lookupLI f p with
    | none => rfl
    | some li =>
      by_cases h1 : p ∈ searchHits f term <;> by_cases h2 : p ∈ searchAncs f term <;>
        simp [h1, h2]

theorem mapLIs_mapLIs (g g' : EPath → LI → LI) (f : Forest) :
    mapLIs g (mapLIs g' f) = mapLIs (fun p li => g p (g' p li)) f := by
  unfold mapLIs
  rw [List.map_map]
  rfl

theorem mapLIs_congr {g g' : EPath → LI → LI} (f : Forest)
    (h : ∀ p li, g p li = g' p li) : mapLIs g f = mapLIs g' f := by
  unfold mapLIs
  apply List.map_congr_left
  intro e _
  rw [h]

theorem searchEmpty_eq (opts : Options) (f : Forest) :
    searchEmpty opts f = mapLIs (fun p li =>
      { li with hidden := false, highlight := false,
                expanded := if hasChildrenF f p then opts.initiallyExpanded
                            else li.expanded }) f := by
  unfold searchEmpty
  cases hie : opts.initiallyExpanded with
  | false => simp only [hie, Bool.false_eq_true, ite_false]
  | true =>
    simp only [hie, ite_true]
    rw [mapLIs_mapLIs]
    apply mapLIs_congr
    intro p li
    rw [hasChildrenF_mapLIs]
    by_cases hc : hasChildrenF f p <;> simp [hc]

theorem searchEmpty_idem (opts : Options) (f : Forest) :
    searchEmpty opts (searchEmpty opts f) = searchEmpty opts f := by
  rw [searchEmpty_eq, searchEmpty_eq, mapLIs_mapLIs]
  apply mapLIs_congr
  intro p li
  rw [hasChildrenF_mapLIs]
  by_cases hc : hasChildrenF f p <;> simp [hc]

/-! ## Selection-operation lemmas -/

theorem addSel_nil (p : EPath) : addSel [] p = [p] := by
  simp [addSel]

theorem selectNode_disabled {s : TState} (p : EPath) (e : Option Bool)
    (h : s.opts.nodeSelectionEnabled = false) : selectNode s p e = (s, []) := by
  simp [selectNode, h]

theorem clickNode_disabled {s : TState} (p : EPath)
    (h : s.opts.nodeSelectionEnabled = false) : clickNode s p = (s, []) := by
  simp [clickNode, h]

theorem toggleSelectAll_disabled {s : TState}
    (h : s.opts.nodeSelectionEnabled = false) : toggleSelectAll s = (s, []) := by
  simp [toggleSelectAll, h]

theorem toggleSelectAll_noMulti {s : TState}
    (h : s.opts.multiSelectEnabled = false) : toggleSelectAll s = (s, []) := by
  simp [toggleSelectAll, h]

theorem runOp_disabled {s : TState} (op : Op)
    (h : s.opts.nodeSelectionEnabled = false) : runOp s op = (s, []) := by
  cases op with
  | select p e => simpa [runOp] using selectNode_disabled p e h
  | click p => simpa [runOp] using clickNode_disabled p h
  | toggleAll => simpa [runOp] using toggleSelectAll_disabled h

theorem selectNodeState_opts (s : TState) (p : EPath) (e : Option Bool) :
    (selectNodeState s p e).opts = s.opts := by
  by_cases hI : effectiveSel s p e <;> by_cases hm : s.opts.multiSelectEnabled <;>
    simp [selectNodeState, hI, hm]

theorem toggleSelectAllState_opts (s : TState) :
    (toggleSelectAllState s).opts = s.opts := by
  simp only [toggleSelectAllState]
  split <;> rfl

theorem runOp_opts (s : TState) (op : Op) : (runOp s op).1.opts = s.opts := by
  cases op with
  | select p e =>
    show (selectNode s p e).1.opts = s.opts
    unfold selectNode
    split
    · rfl
    · exact selectNodeState_opts s p e
  | click p =>
    show (clickNode s p).1.opts = s.opts
    unfold clickNode
    split
    · unfold selectNode
      split
      · rfl
      · exact selectNodeState_opts s p _
    · rfl
  | toggleAll =>
    show (toggleSelectAll s).1.opts = s.opts
    unfold toggleSelectAll
    split
    · rfl
    · split
      · rfl
      · split
        · rfl
        · exact toggleSelectAllState_opts s

theorem selectNodeState_single_selection {s : TState} (p : EPath) (e : Option Bool)
    (hm : s.opts.multiSelectEnabled = false) :
    (selectNodeState s p e).selection = [] ∨
    (selectNodeState s p e).selection =
      List.foldl addSel (addSel [] p)
        (if s.opts.cascadeSelectChildren then getAllDescendants s.forest p
         else []) := by
  unfold selectNodeState
  by_cases hI : effectiveSel s p e
  · right; simp [hm, hI]
  · left; simp [hm, hI]

/-! ## Concrete fixtures (the sample tree of spec §8) -/

def sampleData : List TreeNode :=
  [.mk ⟨"a", "Apple", []⟩ [],
   .mk ⟨"b", "Banana", []⟩ [.mk ⟨"b1", "Banana Jr", []⟩ []]]

def optsMulti : Options :=
  { searchEnabled := false, initiallyExpanded := false,
    multiSelectEnabled := true, nodeSelectionEnabled := true,
    cascadeSelectChildren := false, checkboxSelectionEnabled := false,
    hasOnSelectionChange := true }

def optsSingle : Options := { optsMulti with multiSelectEnabled := false }

def optsCascade : Options :=
  { optsMulti with multiSelectEnabled := false, cascadeSelectChildren := true }

def optsDisabled : Options := { optsMulti with nodeSelectionEnabled := false }

def sMulti : TState := initState optsMulti sampleData

def sSingle : TState := initState optsSingle sampleData

def sCascade : TState := initState optsCascade sampleData

def sDisabled : TState := initState optsDisabled sampleData

/-- A one-element state whose stored payload fails `JSON.parse` and which
has that element selected. -/
def corruptState : TState :=
  { opts := optsMulti,
    forest := [([0],
      { id := "x", payload := none, expanded := false, selected := false,
        hidden := false, highlight := false, checked := false })],
    selection := [[0]] }

/-! ## Shared notification lemma -/

/-- Once past the disabled-selection guard, `_selectNode` always ends in
`_triggerSelectionChange`, which (when a callback is supplied) fires once
with the full current selection. -/
theorem selectNode_notifies (s : TState) (p : EPath) (e : Option Bool)
    (hen : s.opts.nodeSelectionEnabled = true)
    (hcb : s.opts.hasOnSelectionChange = true) :
    (selectNode s p e).2 = [getSelectedNodes (selectNode s p e).1] := by
  unfold selectNode
  rw [hen]
  simp only [Bool.not_true, Bool.false_eq_true, if_false]
  unfold triggerSelectionChange
  rw [selectNodeState_opts, hcb]
  simp

/-! ## Claim C10 -/

/-- Claim C10: for every reachable state, `getSelectedNode()` returns
exactly the value of `getSelectedNodes()` (the method body is a pure
delegation): a list of the selected nodes' data built from the selection
in insertion order — the empty list when nothing is selected, never
`null` and never a single bare object (the result type is always a list). -/
theorem c10_getSelectedNode_delegates (s : TState) :
    getSelectedNode s = getSelectedNodes s ∧
    getSelectedNode s = s.selection.map
      (fun p => nodeValOf ((lookupLI s.forest p).getD phantomLI)) :=
  ⟨rfl, rfl⟩

/-! ## Claim C7 -/

/-- Claim C7: every `_selectNode` call that passes the disabled-selection
guard is followed by exactly one selection-changed notification carrying
the full current selection data (in particular also when membership did
not change, e.g. re-clicking in cascade mode: the trigger is
unconditional after the mutation). -/
theorem c7_always_notifies (s : TState) (p : EPath) (e : Option Bool)
    (hen : s.opts.nodeSelectionEnabled = true)
    (hcb : s.opts.hasOnSelectionChange = true) :
    (selectNode s p e).2 = [getSelectedNodes (selectNode s p e).1] :=
  selectNode_notifies s p e hen hcb

theorem c7_always_notifies_witness :
    sMulti.opts.nodeSelectionEnabled = true ∧
    sMulti.opts.hasOnSelectionChange = true ∧
    (selectNode sMulti [0] (some true)).2 =
      [getSelectedNodes (selectNode sMulti [0] (some true)).1] :=
  ⟨rfl, rfl, c7_always_notifies sMulti [0] (some true) rfl rfl⟩

/-! ## Claim C3 -/

/-- Claim C3: with `nodeSelectionEnabled=false`, every selection mutation
(`_selectNode`, node click, `_toggleSelectAll` — the select-all /
deselect-all control) is a guarded no-op: over any call sequence the
selection stays empty at every point and the `onSelectionChange` callback
is never invoked (no notification is ever emitted). -/
theorem c3_selection_disabled_guarantee (s : TState) (ops : List Op)
    (hdis : s.opts.nodeSelectionEnabled = false)
    (hsel : s.selection = []) :
    (∀ t ∈ trace s ops, t.selection = []) ∧ (runOps s ops).2 = [] := by
  induction ops with
  | nil =>
    refine ⟨?_, rfl⟩
    intro t ht
    simp [trace] at ht
  | cons op ops ih =>
    have hstep := runOp_disabled op hdis
    constructor
    · intro t ht
      simp only [trace, hstep] at ht
      rcases List.mem_cons.mp ht with h | h
      · rw [h]; exact hsel
      · exact ih.1 t h
    · simp [runOps, hstep, ih.2]

theorem c3_selection_disabled_witness :
    sDisabled.opts.nodeSelectionEnabled = false ∧
    (∀ t ∈ trace sDisabled [Op.select [0] (some true), Op.toggleAll, Op.click [1]],
      t.selection = []) ∧
    (runOps sDisabled [Op.select [0] (some true), Op.toggleAll, Op.click [1]]).2 = [] :=
  ⟨rfl,
   (c3_selection_disabled_guarantee sDisabled _ rfl rfl).1,
   (c3_selection_disabled_guarantee sDisabled _ rfl rfl).2⟩

/-! ## Claim C8 -/

theorem selectNode_single_len {s : TState} (p : EPath) (e : Option Bool)
    (hm : s.opts.multiSelectEnabled = false)
    (hc : s.opts.cascadeSelectChildren = false)
    (hlen : s.selection.length ≤ 1) :
    (selectNode s p e).1.selection.length ≤ 1 := by
  unfold selectNode
  split
  · exact hlen
  · rcases selectNodeState_single_selection p e hm with h | h
    · simp [h]
    · rw [h]
      simp [hc, addSel_nil]

theorem runOp_single_len {s : TState} (op : Op)
    (hm : s.opts.multiSelectEnabled = false)
    (hc : s.opts.cascadeSelectChildren = false)
    (hlen : s.selection.length ≤ 1) :
    (runOp s op).1.selection.length ≤ 1 := by
  cases op with
  | select p e => exact selectNode_single_len p e hm hc hlen
  | click p =>
    show (clickNode s p).1.selection.length ≤ 1
    unfold clickNode
    split
    · exact selectNode_single_len _ _ hm hc hlen
    · exact hlen
  | toggleAll =>
    show (toggleSelectAll s).1.selection.length ≤ 1
    rw [toggleSelectAll_noMulti hm]
    exact hlen

/-- Claim C8: with `multiSelectEnabled=false` and
`cascadeSelectChildren=false`, any sequence of `selectNode` calls (text
clicks, explicit calls, and the select-all control alike) keeps the
selection size at 0 or 1; and a click on the node that is currently the
sole selected member (its `selected` class set) empties the selection. -/
theorem c8_single_select_exclusivity (s : TState)
    (hm : s.opts.multiSelectEnabled = false)
    (hc : s.opts.cascadeSelectChildren = false) :
    (∀ ops : List Op, s.selection.length ≤ 1 →
      ∀ t ∈ trace s ops, t.selection.length ≤ 1) ∧
    (∀ p : EPath, s.opts.nodeSelectionEnabled = true →
      s.opts.checkboxSelectionEnabled = false →
      s.selection = [p] →
      ((lookupLI s.forest p).getD phantomLI).selected = true →
      (clickNode s p).1.selection = []) := by
  constructor
  · have main : ∀ (ops : List Op) (t : TState),
        t.opts.multiSelectEnabled = false → t.opts.cascadeSelectChildren = false →
        t.selection.length ≤ 1 → ∀ u ∈ trace t ops, u.selection.length ≤ 1 := by
      intro ops
      induction ops with
      | nil => intro t _ _ _ u hu; simp [trace] at hu
      | cons op ops ih =>
        intro t hm' hc' hlen u hu
        simp only [trace] at hu
        rcases List.mem_cons.mp hu with h | h
        · rw [h]; exact runOp_single_len op hm' hc' hlen
        · exact ih (runOp t op).1 (by rw [runOp_opts]; exact hm')
            (by rw [runOp_opts]; exact hc') (runOp_single_len op hm' hc' hlen) u h
    intro ops hlen
    exact main ops s hm hc hlen
  · intro p hen hcbx hsel hflag
    unfold clickNode
    rw [hen, hcbx, hflag]
    simp only [Bool.not_false, Bool.and_self, ite_true, Bool.not_true]
    unfold selectNode
    rw [hen]
    simp only [Bool.not_true, Bool.false_eq_true, if_false]
    unfold selectNodeState effectiveSel
    simp [hm]

theorem c8_single_select_witness :
    ((clickNode sSingle [0]).1).opts.multiSelectEnabled = false ∧
    (∀ t ∈ trace ((clickNode sSingle [0]).1) [Op.click [1]], t.selection.length ≤ 1) ∧
    (clickNode ((clickNode sSingle [0]).1) [0]).1.selection = [] :=
  ⟨rfl,
   (c8_single_select_exclusivity (clickNode sSingle [0]).1 rfl rfl).1
     [Op.click [1]] (by decide),
   (c8_single_select_exclusivity (clickNode sSingle [0]).1 rfl rfl).2
     [0] rfl rfl (by decide) (by decide)⟩

/-! ## Claim C1 -/

theorem selectNode_fst_enabled (s : TState) (p : EPath) (e : Option Bool)
    (hen : s.opts.nodeSelectionEnabled = true) :
    (selectNode s p e).1 = selectNodeState s p e := by
  unfold selectNode
  rw [hen]
  simp

/-- Claim C1: with `cascadeSelectChildren=true` and `multiSelectEnabled=false`
(and selection enabled, without which no `selectNode` call ever yields a
selection), after any `selectNode(id)` call that results in a non-empty
selection, the selection is exactly the clicked node followed by the
output of the `_getAllDescendants` enumeration primitive — and, on a
well-formed forest, membership is exactly the clicked node and all its
descendants (paths extending `p`), and no other node. -/
theorem c1_cascade_invariant (s : TState) (p : EPath) (e : Option Bool)
    (hwf : wfPaths (pathsOf s.forest)) (hp : p ∈ pathsOf s.forest)
    (hen : s.opts.nodeSelectionEnabled = true)
    (hm : s.opts.multiSelectEnabled = false)
    (hc : s.opts.cascadeSelectChildren = true)
    (hne : (selectNode s p e).1.selection ≠ []) :
    (selectNode s p e).1.selection = p :: getAllDescendants s.forest p ∧
    ∀ q : EPath, q ∈ (selectNode s p e).1.selection ↔
      q ∈ pathsOf s.forest ∧ p <+: q := by
  rw [selectNode_fst_enabled s p e hen] at hne ⊢
  rcases selectNodeState_single_selection p e hm with h | h
  · exact absurd h hne
  · rw [hc] at h
    simp only [ite_true] at h
    have hnd : (getAllDescendants s.forest p).Nodup := getAllDescendants_nodup hwf.1 p
    have hfresh : ∀ d ∈ getAllDescendants s.forest p, d ∉ addSel [] p := by
      intro d hd
      rw [addSel_nil, List.mem_singleton]
      intro hdp
      have := (getAllDescendants_sound hd).2.2
      rw [hdp] at this
      omega
    rw [foldl_addSel_of_fresh _ _ hnd hfresh, addSel_nil] at h
    have hcons : (selectNodeState s p e).selection = p :: getAllDescendants s.forest p := by
      rw [h]; rfl
    refine ⟨hcons, ?_⟩
    intro q
    rw [hcons, List.mem_cons, mem_getAllDescendants hwf q]
    constructor
    · rintro (h | ⟨hq, hpre, _⟩)
      · rw [h]; exact ⟨hp, List.prefix_refl p⟩
      · exact ⟨hq, hpre⟩
    · rintro ⟨hq, hpre⟩
      by_cases hqp : q = p
      · exact Or.inl hqp
      · exact Or.inr ⟨hq, hpre, hqp⟩

theorem c1_cascade_witness :
    wfPaths (pathsOf sCascade.forest) ∧
    (selectNode sCascade [1] (some true)).1.selection ≠ [] ∧
    (selectNode sCascade [1] (some true)).1.selection =
      [1] :: getAllDescendants sCascade.forest [1] :=
  ⟨by decide, by decide,
   (c1_cascade_invariant sCascade [1] (some true) (by decide) (by decide)
     rfl rfl rfl (by decide)).1⟩

/-! ## Claim C6 -/

/-- Claim C6: `getSelectedNodes()` returns the selected nodes' original data
objects (the stored `JSON.stringify(node)` round-trip, arbitrary extra
attributes and all, as one `TreeNode` value returned verbatim) in the
order the nodes were inserted into the selection: selecting a
not-yet-selected node in multi-select mode appends exactly its original
data at the end of the result, leaving the earlier entries' order
untouched. -/
theorem c6_original_data_insertion_order (s : TState) (p : EPath)
    (li : LI) (t : TreeNode)
    (hen : s.opts.nodeSelectionEnabled = true)
    (hm : s.opts.multiSelectEnabled = true)
    (hnew : p ∉ s.selection)
    (hli : lookupLI s.forest p = some li)
    (hpay : li.payload = some t) :
    getSelectedNodes (selectNode s p (some true)).1 =
      getSelectedNodes s ++ [NodeVal.full t] := by
  rw [selectNode_fst_enabled s p (some true) hen]
  unfold selectNodeState
  have hI : effectiveSel s p (some true) = true := rfl
  rw [hI, hm]
  simp only [ite_true]
  unfold getSelectedNodes
  simp only
  rw [addSel, if_neg hnew, List.map_append]
  congr 1
  · apply List.map_congr_left
    intro q hq
    rw [lookupLI_setFlags]
    have hqp : q ≠ p := by
      intro hh
      exact hnew (hh ▸ hq)
    cases hl : lookupLI s.forest q with
    | none => rfl
    | some l => simp [hqp]
  · simp only [List.map_cons, List.map_nil]
    rw [lookupLI_setFlags, hli]
    simp [nodeValOf, hpay]

theorem c6_original_data_witness :
    [0] ∉ sMulti.selection ∧
    getSelectedNodes (selectNode sMulti [0] (some true)).1 =
      getSelectedNodes sMulti ++ [NodeVal.full (.mk ⟨"a", "Apple", []⟩ [])] :=
  ⟨by decide,
   c6_original_data_insertion_order sMulti [0]
     { id := "a", payload := some (.mk ⟨"a", "Apple", []⟩ []), expanded := false,
       selected := false, hidden := false, highlight := false, checked := false }
     (.mk ⟨"a", "Apple", []⟩ []) rfl rfl (by decide) rfl rfl⟩

/-! ## Claim C4 -/

/-- Claim C4: `search('')` — reachable from any state, in particular after
any sequence of searches — restores `hidden=false` (visible) and
`highlight=false` on every element and resets every `has-children`
element's expansion to the `initiallyExpanded` default; a second
`search('')` changes nothing further. -/
theorem c4_empty_search_resets (s s' : TState)
    (hok : search s "" = .ok s') :
    (∀ p li', lookupLI s'.forest p = some li' →
      li'.hidden = false ∧ li'.highlight = false ∧
      (hasChildrenF s.forest p = true → li'.expanded = s.opts.initiallyExpanded)) ∧
    search s' "" = .ok s' := by
  unfold search at hok
  rw [if_pos rfl] at hok
  injection hok with hok
  constructor
  · intro p li' hp
    rw [← hok] at hp
    rw [searchEmpty_eq, lookupLI_mapLIs] at hp
    cases hl : lookupLI s.forest p with
    | none => rw [hl] at hp; cases hp
    | some li =>
      rw [hl] at hp
      simp only [Option.map] at hp
      injection hp with hp
      rw [← hp]
      refine ⟨rfl, rfl, ?_⟩
      intro hc
      simp [hc]
  · rw [← hok]
    unfold search
    rw [if_pos rfl]
    simp only [searchEmpty_idem]

theorem c4_empty_search_witness :
    search sCascade "" =
      .ok { sCascade with forest := searchEmpty sCascade.opts sCascade.forest } ∧
    search { sCascade with forest := searchEmpty sCascade.opts sCascade.forest } "" =
      .ok { sCascade with forest := searchEmpty sCascade.opts sCascade.forest } :=
  ⟨rfl, (c4_empty_search_resets sCascade _ rfl).2⟩

/-! ## Claims C2 and C9: active-search characterization -/

theorem search_ok_active {s s' : TState} {term : String} (hterm : term ≠ "")
    (hok : search s term = .ok s') :
    searchActive s.forest term = .ok s'.forest := by
  unfold search at hok
  rw [if_neg hterm] at hok
  cases hEq : searchActive s.forest term with
  | error u => rw [hEq] at hok; simp [Except.map] at hok
  | ok f =>
    rw [hEq] at hok
    simp only [Except.map] at hok
    injection hok with hok
    rw [← hok]

theorem mem_pathsOf_of_matched {f : Forest} {term : String} {q : EPath}
    (h : matchedAt f term q = true) : q ∈ pathsOf f := by
  unfold matchedAt at h
  cases hl : lookupLI f q with
  | none => rw [hl] at h; cases h
  | some li => exact mem_pathsOf_of_lookup hl

/-- Claim C2: while a non-empty query is active (a completed `_searchTree`
pass), an element is visible (`hidden` class absent) exactly when its own
stored name matches the query case-insensitively or some node of its
subtree (itself included) does; every unrelated branch is hidden. -/
theorem c2_search_visibility (s s' : TState) (term : String)
    (hwf : wfPaths (pathsOf s.forest)) (hterm : term ≠ "")
    (hok : search s term = .ok s')
    (p : EPath) (li' : LI)
    (hp : lookupLI s'.forest p = some li') :
    li'.hidden = false ↔
      ∃ q ∈ pathsOf s.forest, p <+: q ∧ matchedAt s.forest term q = true := by
  have hsa := search_ok_active hterm hok
  have hlook := searchActive_ok_forest hsa p
  rw [hp] at hlook
  cases hl : lookupLI s.forest p with
  | none => rw [hl] at hlook; cases hlook
  | some li =>
    rw [hl] at hlook
    simp only [Option.map] at hlook
    injection hlook with hlook
    have hmem : p ∈ pathsOf s.forest := mem_pathsOf_of_lookup hl
    have hne : p ≠ [] := hwf.2.1 p hmem
    have key : (p ∈ searchHits s.forest term ∨ p ∈ searchAncs s.forest term) ↔
        ∃ q ∈ pathsOf s.forest, p <+: q ∧ matchedAt s.forest term q = true := by
      constructor
      · rintro (h | h)
        · rw [mem_searchHits hwf.1] at h
          exact ⟨p, hmem, List.prefix_refl p, h⟩
        · rcases mem_searchAncs.mp h with ⟨q, hq, hpre, _, _⟩
          rw [mem_searchHits hwf.1] at hq
          exact ⟨q, mem_pathsOf_of_matched hq, hpre, hq⟩
      · rintro ⟨q, hqmem, hpre, hmat⟩
        by_cases hqp : q = p
        · left
          rw [mem_searchHits hwf.1]
          exact hqp ▸ hmat
        · right
          rw [mem_searchAncs]
          refine ⟨q, ?_, hpre, hne, ?_⟩
          · rw [mem_searchHits hwf.1]; exact hmat
          · have hle := hpre.length_le
            rcases Nat.lt_or_ge p.length q.length with hlt | hge
            · exact hlt
            · exact absurd (hpre.eq_of_length (by omega)).symm hqp
    rw [hlook]
    simp only [Bool.not_eq_false', Bool.or_eq_true, decide_eq_true_eq]
    exact key

/-- Claim C9: while a non-empty query is active, every ancestor of every
matched node is force-expanded, and the `highlight` flag is set on exactly
the matched nodes — an ancestor that is not itself a match is never
highlighted. -/
theorem c9_ancestors_expanded_highlight_on_matches (s s' : TState) (term : String)
    (hwf : wfPaths (pathsOf s.forest)) (hterm : term ≠ "")
    (hok : search s term = .ok s') :
    (∀ p q li', q ∈ pathsOf s.forest → matchedAt s.forest term q = true →
      p <+: q → p ≠ q → lookupLI s'.forest p = some li' → li'.expanded = true) ∧
    (∀ p li', lookupLI s'.forest p = some li' →
      li'.highlight = matchedAt s.forest term p) := by
  have hsa := search_ok_active hterm hok
  constructor
  · intro p q li' hqmem hmat hpre hpq hp
    have hlook := searchActive_ok_forest hsa p
    rw [hp] at hlook
    cases hl : lookupLI s.forest p with
    | none => rw [hl] at hlook; cases hlook
    | some li =>
      rw [hl] at hlook
      simp only [Option.map] at hlook
      injection hlook with hlook
      have hmem : p ∈ pathsOf s.forest := mem_pathsOf_of_lookup hl
      have hne : p ≠ [] := hwf.2.1 p hmem
      have hancs : p ∈ searchAncs s.forest term := by
        rw [mem_searchAncs]
        refine ⟨q, ?_, hpre, hne, ?_⟩
        · rw [mem_searchHits hwf.1]; exact hmat
        · have hle := hpre.length_le
          rcases Nat.lt_or_ge p.length q.length with hlt | hge
          · exact hlt
          · exact absurd (hpre.eq_of_length (by omega)) hpq
      rw [hlook]
      simp [hancs]
  · intro p li' hp
    have hlook := searchActive_ok_forest hsa p
    rw [hp] at hlook
    cases hl : lookupLI s.forest p with
    | none => rw [hl] at hlook; cases hlook
    | some li =>
      rw [hl] at hlook
      simp only [Option.map] at hlook
      injection hlook with hlook
      rw [hlook]
      cases hmat : matchedAt s.forest term p with
      | false => simp [mem_searchHits hwf.1, hmat]
      | true => simp [mem_searchHits hwf.1, hmat]

/-- The `<li>` of node `b` after searching the sample tree for "jr". -/
def liBJr : LI :=
  { id := "b",
    payload := some (.mk ⟨"b", "Banana", []⟩ [.mk ⟨"b1", "Banana Jr", []⟩ []]),
    expanded := true, selected := false, hidden := false, highlight := false,
    checked := false }

/-- The `<li>` of node `b1` after searching the sample tree for "jr". -/
def liB1Jr : LI :=
  { id := "b1", payload := some (.mk ⟨"b1", "Banana Jr", []⟩ []),
    expanded := false, selected := false, hidden := false, highlight := true,
    checked := false }

/-- The `<li>` of node `a` after searching the sample tree for "jr". -/
def liAJr : LI :=
  { id := "a", payload := some (.mk ⟨"a", "Apple", []⟩ []),
    expanded := false, selected := false, hidden := true, highlight := false,
    checked := false }

/-- The full widget state after `search("jr")` on the cascade sample. -/
def sJr : TState :=
  { opts := optsCascade,
    forest := [([0], liAJr), ([1], liBJr), ([1, 0], liB1Jr)],
    selection := [] }

theorem c2_search_visibility_witness :
    search sCascade "jr" = .ok sJr ∧
    (liBJr.hidden = false ↔
      ∃ q ∈ pathsOf sCascade.forest, [1] <+: q ∧
        matchedAt sCascade.forest "jr" q = true) :=
  ⟨rfl,
   c2_search_visibility sCascade sJr "jr" (by decide) (by decide) rfl [1] liBJr rfl⟩

theorem c9_ancestors_expanded_witness :
    matchedAt sCascade.forest "jr" [1, 0] = true ∧
    liBJr.expanded = true ∧
    liB1Jr.highlight = matchedAt sCascade.forest "jr" [1, 0] :=
  ⟨rfl,
   (c9_ancestors_expanded_highlight_on_matches sCascade sJr "jr"
      (by decide) (by decide) rfl).1 [1] [1, 0] liBJr (by decide) rfl
      (by decide) (by decide) rfl,
   (c9_ancestors_expanded_highlight_on_matches sCascade sJr "jr"
      (by decide) (by decide) rfl).2 [1, 0] liB1Jr rfl⟩

/-! ## Claim C5 -/

/-- Claim C5, counterexample: the claim says every payload read-back recovers
locally and never propagates a thrown error — but the match loop of
`_searchTree` (line 525) calls `JSON.parse(item.dataset.nodeData)` with no
`try`/`catch`, so on a state with one corrupted payload a non-empty search
throws out of the call (`Except.error`), refuting the claim for the
search/filter pass. -/
theorem c5_counterexample_search_throws :
    search corruptState "x" = .error () := rfl

/-- Claim C5, amended: `getSelectedNodes` and the selection-changed
notification recover a corrupted payload locally — the `catch` branch
substitutes the minimal record of `dataset.id` and the best-effort name
(`'Unnamed Node'`, since the display-name helper's re-parse fails too) and
no error escapes (both are total and the notification still fires with the
full recovered list); the search/filter pass, by contrast, propagates the
parse failure as a thrown error (see the counterexample). -/
theorem c5_read_back_recovery (s : TState) (p : EPath) (li : LI)
    (hmem : p ∈ s.selection)
    (hli : lookupLI s.forest p = some li)
    (hcor : li.payload = none) :
    NodeVal.minimal li.id "Unnamed Node" ∈ getSelectedNodes s ∧
    (∀ q e, s.opts.nodeSelectionEnabled = true →
      s.opts.hasOnSelectionChange = true →
      (selectNode s q e).2 = [getSelectedNodes (selectNode s q e).1]) := by
  constructor
  · unfold getSelectedNodes
    refine List.mem_map.mpr ⟨p, hmem, ?_⟩
    rw [hli]
    simp [nodeValOf, getDisplayNameFromNodeElement, hcor]
  · intro q e hen hcb
    exact selectNode_notifies s q e hen hcb

theorem c5_read_back_recovery_witness :
    NodeVal.minimal "x" "Unnamed Node" ∈ getSelectedNodes corruptState ∧
    (selectNode corruptState [0] (some true)).2 =
      [getSelectedNodes (selectNode corruptState [0] (some true)).1] :=
  ⟨(c5_read_back_recovery corruptState [0]
      { id := "x", payload := none, expanded := false, selected := false,
        hidden := false, highlight := false, checked := false }
      (by decide) rfl rfl).1,
   (c5_read_back_recovery corruptState [0]
      { id := "x", payload := none, expanded := false, selected := false,
        hidden := false, highlight := false, checked := false }
      (by decide) rfl rfl).2 [0] (some true) rfl rfl⟩
